import Mathlib

/-
Verification of the s-graph algebra (SGraph) of M4LP/HW5/graphs.py.

Embedding conventions:
* Python sets of ints become Lean lists of Int with no duplicates; list order
  models set-iteration order (irrelevant for everything proved here).
* Python dicts become association lists List (key × value); list order models
  dict insertion order.  Lookup, in-place update and removal are alookup,
  aupdate and aerase below, matching dict semantics for unique keys.
* In-place mutating methods of the Python class become functions returning
  a new SGraph; methods that can raise become Except-valued functions.
* Python AssertionError at construction is GErr.structuralError, the
  AssertionError of replace_node is GErr.collisionError, dict/set KeyError is
  GErr.keyError, the ValueError of max on an empty set is GErr.valueError,
  and the GraphError of rename and add_source is GErr.graphError.
* The external smatch/penman alignment oracle is not part of the repository
  sources; where a claim needs it, it is modelled from the spec as an
  explicit parameter (see sgraphEq).
-/

set_option maxHeartbeats 1000000

/-- Error taxonomy of graphs.py (see embedding conventions above). -/
inductive GErr where
  | structuralError
  | collisionError
  | keyError
  | valueError
  | graphError
deriving DecidableEq

/-- Keys of an association list (a Python dict). -/
def keys {α β : Type} (l : List (α × β)) : List α := l.map Prod.fst

/-- Python dict lookup d[k] (keys are unique, so first match is the match). -/
def alookup {α β : Type} [DecidableEq α] : List (α × β) → α → Option β
  | [], _ => none
  | p :: rest, k => if p.1 = k then some p.2 else alookup rest k

/-- Python dict assignment d[k] = v: replace the value in place if the key
exists, otherwise append the new binding at the end. -/
def aupdate {α β : Type} [DecidableEq α] : List (α × β) → α → β → List (α × β)
  | [], k, v => [(k, v)]
  | p :: rest, k, v => if p.1 = k then (k, v) :: rest else p :: aupdate rest k v

/-- Python dict removal d.pop(k): drop the binding for k. -/
def aerase {α β : Type} [DecidableEq α] : List (α × β) → α → List (α × β)
  | [], _ => []
  | p :: rest, k => if p.1 = k then rest else p :: aerase rest k

/-- Python d.update(e): fold the bindings of e into d with dict assignment. -/
def dictUpdate {α β : Type} [DecidableEq α] (d e : List (α × β)) : List (α × β) :=
  e.foldl (fun acc p => aupdate acc p.1 p.2) d

/-- Python set union a.union(b), modelled with the elements of a first. -/
def listUnion (a b : List Int) : List Int :=
  a ++ b.filter (fun x => decide (x ∉ a))

/-- Python max over a collection of ints, None for the empty collection
(where Python raises ValueError). -/
def maxList : List Int → Option Int
  | [] => none
  | x :: xs =>
    match maxList xs with
    | none => some x
    | some m => some (max x m)

/-- The s-graph record of graphs.py (class SGraph, attributes of lines 33-38):
nodes is a set of ints, edges maps an origin node to its list of
(target, label) pairs, node_labels maps nodes to labels, sources maps source
names to nodes, root is an optional designated node. -/
structure SGraph where
  nodes : List Int
  edges : List (Int × List (Int × String))
  node_labels : List (Int × String)
  sources : List (String × Int)
  root : Option Int
deriving DecidableEq

/-- Root clause of the data-model invariants: if set, the root is a node. -/
def rootOk : Option Int → List Int → Prop
  | none, _ => True
  | some r, ns => r ∈ ns

instance : ∀ (o : Option Int) (ns : List Int), Decidable (rootOk o ns)
  | none, _ => isTrue trivial
  | some r, ns => inferInstanceAs (Decidable (r ∈ ns))

/-- The four structural invariants of the data model (spec section 3):
1. every edge origin and edge target is a node; 2. every node referenced by
sources or node_labels is a node; 3. a set root is a node; 4. keys are
unique (here: nodes and all dict key lists have no duplicates). -/
def invariants (g : SGraph) : Prop :=
  g.nodes.Nodup ∧
  (keys g.edges).Nodup ∧
  (keys g.node_labels).Nodup ∧
  (keys g.sources).Nodup ∧
  (∀ p ∈ g.edges, p.1 ∈ g.nodes ∧ ∀ t ∈ p.2, t.1 ∈ g.nodes) ∧
  (∀ p ∈ g.sources, p.2 ∈ g.nodes) ∧
  (∀ p ∈ g.node_labels, p.1 ∈ g.nodes) ∧
  rootOk g.root g.nodes

deriving instance DecidableEq for Except

instance (g : SGraph) : Decidable (invariants g) := by
  unfold invariants
  infer_instance

/-- SGraph.__init__ (graphs.py lines 41-76): after filling defaults, assert
that a set root is a node, that edge origins are nodes, that source values
are nodes and that label keys are nodes.  Note that the code checks only the
KEYS of edges against nodes (line 72), not the edge targets, although the
assertion message reads: Edges must be subset of nodes x nodes. -/
def mkSGraph (nodes : List Int) (edges : List (Int × List (Int × String)))
    (node_labels : List (Int × String)) (sources : List (String × Int))
    (root : Option Int) : Except GErr SGraph :=
  if (match root with | none => true | some r => decide (r ∈ nodes)) = false then
    .error .structuralError
  else if (edges.all (fun p => decide (p.1 ∈ nodes))) = false then
    .error .structuralError
  else if (sources.all (fun p => decide (p.2 ∈ nodes))) = false then
    .error .structuralError
  else if (node_labels.all (fun p => decide (p.1 ∈ nodes))) = false then
    .error .structuralError
  else
    .ok { nodes := nodes, edges := edges, node_labels := node_labels,
          sources := sources, root := root }

/-- SGraph.replace_node (graphs.py lines 132-173): assert the new node is not
present (CollisionError), update the root, move old to new in the node set
(KeyError if old is absent), move the edge entry of old to new and rewrite
every edge target, rewrite source values, move the label of old to new.
The success path of the method is factored out as replaceBody. -/
def replaceBody (g : SGraph) (old_node new_node : Int) : SGraph :=
  { root := if g.root = some old_node then some new_node else g.root
    nodes := g.nodes.erase old_node ++ [new_node]
    edges :=
      (let e0 : List (Int × List (Int × String)) :=
        match alookup g.edges old_node with
        | some es => aupdate (aerase g.edges old_node) new_node es
        | none => g.edges
      e0.map (fun p =>
        (p.1, p.2.map (fun t => if t.1 = old_node then (new_node, t.2) else t))))
    sources := g.sources.map (fun p =>
      if p.2 = old_node then (p.1, new_node) else p)
    node_labels :=
      match alookup g.node_labels old_node with
      | some lab => aupdate (aerase g.node_labels old_node) new_node lab
      | none => g.node_labels }

/-- Guard structure of SGraph.replace_node: CollisionError when the new
node is already present, KeyError when the old node is absent, otherwise
the substitution described by replaceBody. -/
def replace_node (g : SGraph) (old_node new_node : Int) : Except GErr SGraph :=
  if new_node ∈ g.nodes then .error .collisionError
  else if old_node ∈ g.nodes then .ok (replaceBody g old_node new_node)
  else .error .keyError

/-- SGraph.forget (graphs.py lines 209-217): drop the source binding if
present, otherwise warn and leave the graph unchanged. -/
def forget (g : SGraph) (source : String) : SGraph :=
  if source ∈ keys g.sources then { g with sources := aerase g.sources source }
  else g

/-- SGraph.rename (graphs.py lines 219-229): GraphError if the new source
name is taken; otherwise move the binding of the old name, if any, to the
new name (silent no-op when the old name is absent). -/
def rename (g : SGraph) (old_source new_source : String) : Except GErr SGraph :=
  if new_source ∈ keys g.sources then .error .graphError
  else
    match alookup g.sources old_source with
    | some node =>
      .ok { g with sources := aupdate (aerase g.sources old_source) new_source node }
    | none => .ok g

/-- SGraph.add_source (graphs.py lines 231-242): GraphError if the source
name is bound to a different node; otherwise (fresh name, or same binding
after a warning) assign sources[source] = node.  The code never checks that
node is a member of nodes. -/
def add_source (g : SGraph) (node : Int) (source : String) : Except GErr SGraph :=
  match alookup g.sources source with
  | some n =>
    if n = node then .ok { g with sources := aupdate g.sources source node }
    else .error .graphError
  | none => .ok { g with sources := aupdate g.sources source node }

/-- The first loop of SGraph.__add__ (graphs.py lines 188-191): rename every
node of the cloned right operand to the running fresh counter. -/
def renumberNodes (g : SGraph) : List Int → Int → Except GErr (SGraph × Int)
  | [], c => .ok (g, c)
  | n :: rest, c =>
    match replace_node g n c with
    | .ok g1 => renumberNodes g1 rest (c + 1)
    | .error e => .error e

/-- The second loop of SGraph.__add__ (graphs.py lines 193-195): for every
source name of the left operand that the right operand also binds, rename the
node currently holding that source in the (renumbered) right copy to the node
holding it in the left operand. -/
def unifySources : List (String × Int) → List String → SGraph → Except GErr SGraph
  | [], _, g => .ok g
  | (s, nSelf) :: rest, ks, g =>
    if s ∈ ks then
      match alookup g.sources s with
      | some oldn =>
        match replace_node g oldn nSelf with
        | .ok g1 => unifySources rest ks g1
        | .error e => .error e
      | none => .error .keyError
    else unifySources rest ks g

/-- The edge-combination loop of SGraph.__add__ (graphs.py lines 199-203):
append the right list to the left list per origin, creating the entry when
the left operand has none. -/
def mergeEdges (e1 e2 : List (Int × List (Int × String))) :
    List (Int × List (Int × String)) :=
  e2.foldl (fun acc p =>
    match alookup acc p.1 with
    | some es => aupdate acc p.1 (es ++ p.2)
    | none => aupdate acc p.1 p.2) e1

/-- SGraph.__add__ (graphs.py lines 175-207) in state-passing form.  The
first two components of the result are the final states of the two operand
objects: the method deep-copies both operands (lines 184-185) and every
subsequent mutation targets only the copies, so the operands pass through
unchanged.  The third component is the returned merged graph: fresh counter
above the maximum node of either operand (ValueError on two empty graphs),
renumber the right copy, unify shared sources, then union the node sets,
concatenate edge lists per origin and fold the right maps into the left
copies, keeping the root of the left operand. -/
def mergeFull (self other : SGraph) : Except GErr (SGraph × SGraph × SGraph) :=
  match maxList (listUnion self.nodes other.nodes) with
  | none => .error .valueError
  | some m =>
    match renumberNodes other other.nodes (m + 1) with
    | .error e => .error e
    | .ok (new_other, _) =>
      match unifySources self.sources (keys other.sources) new_other with
      | .error e => .error e
      | .ok new_other2 =>
        .ok (self, other,
          { nodes := listUnion self.nodes new_other2.nodes
            edges := mergeEdges self.edges new_other2.edges
            node_labels := dictUpdate self.node_labels new_other2.node_labels
            sources := dictUpdate self.sources new_other2.sources
            root := self.root })

/-- The merged graph returned by SGraph.__add__. -/
def merge (a b : SGraph) : Except GErr SGraph :=
  match mergeFull a b with
  | .ok t => .ok t.2.2
  | .error e => .error e

/-- The empty graph SGraph() (all-default construction). -/
def emptySGraph : SGraph := { nodes := [], edges := [], node_labels := [],
                              sources := [], root := none }

/-- Triple interchange form fed to the alignment oracle: instance and edge
triples plus the top identifier. -/
abbrev PenmanG := List (String × String × String) × String

/-- SGraph.to_penman (graphs.py lines 287-310): instance triples for sourced
and labelled nodes (a sourced labelled node gets its label concatenated with
the bracketed source names), then edge triples, with str(root) as top. -/
def to_penman (g : SGraph) : PenmanG :=
  let start : List (Int × String) × List (String × String × String) :=
    (g.node_labels, [])
  let step := fun (acc : List (Int × String) × List (String × String × String))
      (p : String × Int) =>
    let label := "<" ++ p.1 ++ ">"
    match alookup acc.1 p.2 with
    | some l => (aupdate acc.1 p.2 (l ++ label), acc.2)
    | none => (acc.1, acc.2 ++ [(toString p.2, ":instance", label)])
  let fs := g.sources.foldl step start
  let triples := fs.2 ++ fs.1.map (fun p => (toString p.1, ":instance", p.2))
  let triples := triples ++ g.edges.foldl (fun acc p =>
    acc ++ p.2.map (fun t => (toString p.1, t.2, toString t.1))) []
  (triples, match g.root with | some r => toString r | none => "None")

/-- SGraph.__eq__ (graphs.py lines 106-118): encode both graphs to the
triple form and ask the alignment oracle for (precision, recall, f1); equal
iff the f1 score is within 1e-6 of 1.0, and any failure of the export or of
the oracle is caught and turned into the answer false.  The oracle itself
(penman.encode, get_amr_match, compute_f) is external to the repository and
is modelled from the spec as a parameter returning either a failure or an
f1 score. -/
def sgraphEq (oracle : PenmanG → PenmanG → Except String ℚ)
    (a b : SGraph) : Bool :=
  match oracle (to_penman a) (to_penman b) with
  | .error _ => false
  | .ok f1 => decide (|f1 - 1| ≤ 1 / 1000000)

/-- Substitution on node identifiers. -/
def subst (old_node new_node x : Int) : Int :=
  if x = old_node then new_node else x

/-- Modelled from the spec (section 4.2): the specified meaning of
replace_node, substituting the new identifier for the old one everywhere it
occurs (node set, edge origins and targets, source values, label keys, root)
and changing nothing else.  Used as the specification side of claim C9. -/
def specReplace (g : SGraph) (old_node new_node : Int) : SGraph :=
  { nodes := g.nodes.map (subst old_node new_node)
    edges := g.edges.map (fun p => (subst old_node new_node p.1,
      p.2.map (fun t => (subst old_node new_node t.1, t.2))))
    node_labels := g.node_labels.map (fun p => (subst old_node new_node p.1, p.2))
    sources := g.sources.map (fun p => (p.1, subst old_node new_node p.2))
    root := g.root.map (subst old_node new_node) }

/-- Extensional equality of graphs: same node set, same dict contents per
key, same root. -/
def equivS (g h : SGraph) : Prop :=
  (∀ x : Int, x ∈ g.nodes ↔ x ∈ h.nodes) ∧
  (∀ k : Int, alookup g.edges k = alookup h.edges k) ∧
  (∀ k : Int, alookup g.node_labels k = alookup h.node_labels k) ∧
  (∀ k : String, alookup g.sources k = alookup h.sources k) ∧
  g.root = h.root

/-- The nodes of the left operand that hold a source name also bound by the
right operand, in the iteration order of the unification loop of merge. -/
def sharedVals (a b : SGraph) : List Int :=
  (a.sources.filter (fun p => decide (p.1 ∈ keys b.sources))).map Prod.snd

section AssocLemmas

variable {α β γ : Type} [DecidableEq α]

theorem alookup_eq_none {l : List (α × β)} {k : α} :
    alookup l k = none ↔ k ∉ keys l := by
  induction l with
  | nil => simp [alookup, keys]
  | cons p rest ih =>
    simp only [alookup, keys, List.map_cons, List.mem_cons]
    split
    · simp_all
    · simp_all [keys, eq_comm]

theorem alookup_mem {l : List (α × β)} {k : α} {v : β}
    (h : alookup l k = some v) : (k, v) ∈ l := by
  induction l with
  | nil => simp [alookup] at h
  | cons p rest ih =>
    simp only [alookup] at h
    split at h
    · rename_i he
      obtain rfl : p.2 = v := by simpa using h
      simp [← he]
    · simp [ih h]

theorem mem_aupdate {l : List (α × β)} {k : α} {v : β} {q : α × β}
    (h : q ∈ aupdate l k v) : q ∈ l ∨ q = (k, v) := by
  induction l with
  | nil => simp [aupdate] at h; simp [h]
  | cons p rest ih =>
    simp only [aupdate] at h
    split at h
    · rcases List.mem_cons.mp h with h1 | h1
      · right; exact h1
      · left; simp [h1]
    · rcases List.mem_cons.mp h with h1 | h1
      · left; simp [h1]
      · rcases ih h1 with h2 | h2
        · left; simp [h2]
        · right; exact h2

omit [DecidableEq α] in
theorem keys_nil {β : Type} : keys ([] : List (α × β)) = [] := rfl

omit [DecidableEq α] in
theorem keys_cons {β : Type} {p : α × β} {l : List (α × β)} :
    keys (p :: l) = p.1 :: keys l := rfl

theorem mem_keys_aupdate {l : List (α × β)} {k a : α} {v : β} :
    a ∈ keys (aupdate l k v) ↔ a ∈ keys l ∨ a = k := by
  induction l with
  | nil => simp [aupdate, keys, eq_comm]
  | cons p rest ih =>
    simp only [aupdate]
    split
    · rename_i he
      subst he
      simp only [keys_cons, List.mem_cons]
      tauto
    · simp only [keys_cons, List.mem_cons]
      rw [ih]
      tauto

theorem nodup_keys_aupdate {l : List (α × β)} {k : α} {v : β}
    (h : (keys l).Nodup) : (keys (aupdate l k v)).Nodup := by
  induction l with
  | nil => simp [aupdate, keys]
  | cons p rest ih =>
    simp only [keys, List.map_cons, List.nodup_cons] at h
    simp only [aupdate]
    split
    · rename_i he
      simp only [keys, List.map_cons, List.nodup_cons]
      exact ⟨he ▸ h.1, h.2⟩
    · rename_i he
      simp only [keys, List.map_cons, List.nodup_cons]
      refine ⟨?_, ih h.2⟩
      intro hmem
      rcases (mem_keys_aupdate).mp hmem with h1 | h1
      · exact h.1 h1
      · exact he (h1 ▸ rfl)

theorem mem_aerase {l : List (α × β)} {k : α} {q : α × β}
    (h : q ∈ aerase l k) : q ∈ l := by
  induction l with
  | nil => simp [aerase] at h
  | cons p rest ih =>
    simp only [aerase] at h
    split at h
    · simp [h]
    · rcases List.mem_cons.mp h with h1 | h1
      · simp [h1]
      · simp [ih h1]

theorem mem_aerase_nodup {l : List (α × β)} {k : α} {q : α × β}
    (hnd : (keys l).Nodup) (h : q ∈ aerase l k) : q ∈ l ∧ q.1 ≠ k := by
  induction l with
  | nil => simp [aerase] at h
  | cons p rest ih =>
    simp only [keys, List.map_cons, List.nodup_cons] at hnd
    simp only [aerase] at h
    split at h
    · rename_i he
      refine ⟨List.mem_cons_of_mem _ h, ?_⟩
      intro hq
      have hmem : q.1 ∈ List.map Prod.fst rest := List.mem_map_of_mem Prod.fst h
      rw [hq, ← he] at hmem
      exact hnd.1 hmem
    · rename_i he
      rcases List.mem_cons.mp h with h1 | h1
      · exact ⟨by simp [h1], by rw [h1]; exact he⟩
      · obtain ⟨h2, h3⟩ := ih hnd.2 h1
        exact ⟨List.mem_cons_of_mem _ h2, h3⟩

theorem nodup_keys_aerase {l : List (α × β)} {k : α}
    (h : (keys l).Nodup) : (keys (aerase l k)).Nodup := by
  induction l with
  | nil => simp [aerase, keys]
  | cons p rest ih =>
    simp only [keys, List.map_cons, List.nodup_cons] at h
    simp only [aerase]
    split
    · exact h.2
    · simp only [keys, List.map_cons, List.nodup_cons]
      refine ⟨?_, ih h.2⟩
      intro hmem
      rcases List.mem_map.mp hmem with ⟨q, hq, hq2⟩
      exact h.1 (hq2 ▸ List.mem_map_of_mem Prod.fst (mem_aerase hq))

theorem alookup_aupdate_self {l : List (α × β)} {k : α} {v : β} :
    alookup (aupdate l k v) k = some v := by
  induction l with
  | nil => simp [aupdate, alookup]
  | cons p rest ih =>
    simp only [aupdate]
    split
    · simp [alookup]
    · simp only [alookup]
      rw [if_neg (by assumption)]
      exact ih

theorem alookup_aupdate_ne {l : List (α × β)} {k k1 : α} {v : β}
    (h : k1 ≠ k) : alookup (aupdate l k v) k1 = alookup l k1 := by
  induction l with
  | nil =>
    simp only [aupdate, alookup]
    rw [if_neg (fun hh => h hh.symm)]
  | cons p rest ih =>
    simp only [aupdate]
    split
    · rename_i he
      subst he
      simp only [alookup]
      rw [if_neg (fun hh => h hh.symm), if_neg (fun hh => h hh.symm)]
    · simp only [alookup]
      split
      · rfl
      · exact ih

theorem alookup_aerase_self {l : List (α × β)} {k : α}
    (hnd : (keys l).Nodup) : alookup (aerase l k) k = none := by
  rw [alookup_eq_none]
  intro hmem
  rcases List.mem_map.mp hmem with ⟨q, hq, hq2⟩
  exact (mem_aerase_nodup hnd hq).2 hq2

theorem alookup_aerase_ne {l : List (α × β)} {k k1 : α}
    (h : k1 ≠ k) : alookup (aerase l k) k1 = alookup l k1 := by
  induction l with
  | nil => simp [aerase]
  | cons p rest ih =>
    simp only [aerase]
    split
    · rename_i he
      simp only [alookup]
      rw [if_neg (fun hh => h (he ▸ hh).symm)]
    · simp only [alookup]
      split
      · rfl
      · exact ih

theorem mem_dictUpdate {d e : List (α × β)} {q : α × β}
    (h : q ∈ dictUpdate d e) : q ∈ d ∨ q ∈ e := by
  induction e generalizing d with
  | nil => simp [dictUpdate] at h; exact Or.inl h
  | cons p rest ih =>
    simp only [dictUpdate, List.foldl_cons] at h
    rcases ih h with h1 | h1
    · rcases mem_aupdate h1 with h2 | h2
      · exact Or.inl h2
      · right; simp [h2]
    · right; exact List.mem_cons_of_mem _ h1

theorem nodup_keys_dictUpdate {d e : List (α × β)}
    (h : (keys d).Nodup) : (keys (dictUpdate d e)).Nodup := by
  induction e generalizing d with
  | nil => simpa [dictUpdate]
  | cons p rest ih =>
    simp only [dictUpdate, List.foldl_cons]
    exact ih (nodup_keys_aupdate h)

omit [DecidableEq α] in
theorem keys_map_of_fst_eq {l : List (α × β)} {f : α × β → α × γ}
    (h : ∀ p ∈ l, (f p).1 = p.1) : keys (l.map f) = keys l := by
  induction l with
  | nil => simp [keys]
  | cons p rest ih =>
    simp only [keys, List.map_cons] at ih ⊢
    rw [h p (by simp), ih (fun q hq => h q (List.mem_cons_of_mem _ hq))]

theorem alookup_valmap {l : List (α × β)} {f : β → γ} {k : α} :
    alookup (l.map (fun p => (p.1, f p.2))) k = (alookup l k).map f := by
  induction l with
  | nil => simp [alookup]
  | cons p rest ih =>
    simp only [List.map_cons, alookup]
    split
    · rfl
    · exact ih

end AssocLemmas

theorem mem_listUnion {a b : List Int} {x : Int} :
    x ∈ listUnion a b ↔ x ∈ a ∨ x ∈ b := by
  simp only [listUnion, List.mem_append, List.mem_filter, decide_eq_true_eq]
  constructor
  · rintro (h | ⟨h, _⟩)
    · exact Or.inl h
    · exact Or.inr h
  · rintro (h | h)
    · exact Or.inl h
    · by_cases ha : x ∈ a
      · exact Or.inl ha
      · exact Or.inr ⟨h, ha⟩

theorem nodup_listUnion {a b : List Int} (ha : a.Nodup) (hb : b.Nodup) :
    (listUnion a b).Nodup := by
  refine List.Nodup.append ha (hb.filter _) ?_
  intro x hx hx2
  rcases List.mem_filter.mp hx2 with ⟨_, h2⟩
  exact (decide_eq_true_eq.mp h2) hx

theorem maxList_eq_none {l : List Int} : maxList l = none ↔ l = [] := by
  cases l with
  | nil => simp [maxList]
  | cons y rest =>
    simp only [maxList]
    split
    · simp
    · simp

theorem maxList_le {l : List Int} {m : Int} (h : maxList l = some m) :
    ∀ x ∈ l, x ≤ m := by
  induction l generalizing m with
  | nil => simp [maxList] at h
  | cons y rest ih =>
    simp only [maxList] at h
    split at h
    · rename_i hnone
      rw [maxList_eq_none] at hnone
      subst hnone
      simp only [Option.some.injEq] at h
      subst h
      intro x hx
      simp only [List.mem_singleton] at hx
      omega
    · rename_i m1 hsome
      simp only [Option.some.injEq] at h
      subst h
      intro x hx
      rcases List.mem_cons.mp hx with rfl | hx1
      · exact le_max_left _ _
      · exact le_trans (ih hsome x hx1) (le_max_right _ _)

theorem maxList_isSome {l : List Int} (h : l ≠ []) :
    ∃ m, maxList l = some m := by
  cases l with
  | nil => exact absurd rfl h
  | cons y rest =>
    simp only [maxList]
    split
    · exact ⟨y, rfl⟩
    · rename_i m1 _
      exact ⟨max y m1, rfl⟩

theorem replace_node_eq_ok {g g' : SGraph} {o n : Int} :
    replace_node g o n = .ok g' ↔
      n ∉ g.nodes ∧ o ∈ g.nodes ∧ g' = replaceBody g o n := by
  unfold replace_node
  split
  · rename_i h
    simp [h]
  · rename_i h
    split
    · rename_i h2
      simp [h, h2, eq_comm]
    · rename_i h2
      simp [h, h2]

theorem mem_newnodes_of_ne {ns : List Int} {o n x : Int}
    (hx : x ∈ ns) (hne : x ≠ o) : x ∈ ns.erase o ++ [n] :=
  List.mem_append_left _ ((List.mem_erase_of_ne hne).mpr hx)

theorem mem_newnodes_self {ns : List Int} {o n : Int} : n ∈ ns.erase o ++ [n] :=
  List.mem_append_right _ (List.mem_singleton_self n)

theorem replaceBody_invariants {g : SGraph} {o n : Int}
    (hg : invariants g) (hn : n ∉ g.nodes) (ho : o ∈ g.nodes) :
    invariants (replaceBody g o n) := by
  obtain ⟨hnd, hke, hkl, hks, hedges, hsrc, hlab, hroot⟩ := hg
  have htarget : ∀ (ts : List (Int × String)), (∀ t ∈ ts, t.1 ∈ g.nodes) →
      ∀ t1 ∈ ts.map (fun t => if t.1 = o then (n, t.2) else t),
        t1.1 ∈ g.nodes.erase o ++ [n] := by
    intro ts hts t1 ht1
    rcases List.mem_map.mp ht1 with ⟨t0, ht0, rfl⟩
    by_cases hto : t0.1 = o
    · rw [if_pos hto]
      exact mem_newnodes_self
    · rw [if_neg hto]
      exact mem_newnodes_of_ne (hts t0 ht0) hto
  refine ⟨?_, ?_, ?_, ?_, ?_, ?_, ?_, ?_⟩
  · simp only [replaceBody]
    refine List.Nodup.append (hnd.erase o) (List.nodup_singleton n) ?_
    intro x hx hx2
    simp only [List.mem_singleton] at hx2
    subst hx2
    exact hn (List.mem_of_mem_erase hx)
  · simp only [replaceBody]
    rw [keys_map_of_fst_eq]
    · split
      · exact nodup_keys_aupdate (nodup_keys_aerase hke)
      · exact hke
    · intro p _
      rfl
  · simp only [replaceBody]
    split
    · exact nodup_keys_aupdate (nodup_keys_aerase hkl)
    · exact hkl
  · simp only [replaceBody]
    rw [keys_map_of_fst_eq ?_]
    · exact hks
    · intro p _
      by_cases h : p.2 = o <;> simp [h]
  · simp only [replaceBody]
    intro p hp
    rcases List.mem_map.mp hp with ⟨q, hq, rfl⟩
    have hqfacts : q.1 ∈ g.nodes.erase o ++ [n] ∧ ∀ t ∈ q.2, t.1 ∈ g.nodes := by
      revert hq
      split
      · rename_i es h0
        intro hq
        rcases mem_aupdate hq with h2 | h2
        · obtain ⟨h3, h4⟩ := mem_aerase_nodup hke h2
          exact ⟨mem_newnodes_of_ne (hedges q h3).1 h4, (hedges q h3).2⟩
        · subst h2
          refine ⟨mem_newnodes_self, ?_⟩
          exact (hedges (o, es) (alookup_mem h0)).2
      · rename_i h0
        intro hq
        have h4 : q.1 ≠ o := by
          intro hqo
          have hm := List.mem_map_of_mem Prod.fst hq
          rw [hqo] at hm
          exact (alookup_eq_none.mp h0) hm
        exact ⟨mem_newnodes_of_ne (hedges q hq).1 h4, (hedges q hq).2⟩
    exact ⟨hqfacts.1, htarget q.2 hqfacts.2⟩
  · simp only [replaceBody]
    intro p hp
    rcases List.mem_map.mp hp with ⟨q, hq, rfl⟩
    by_cases hqo : q.2 = o
    · rw [if_pos hqo]
      exact mem_newnodes_self
    · rw [if_neg hqo]
      exact mem_newnodes_of_ne (hsrc q hq) hqo
  · simp only [replaceBody]
    intro p hp
    revert hp
    split
    · rename_i lab h1
      intro hp
      rcases mem_aupdate hp with h2 | h2
      · obtain ⟨h3, h4⟩ := mem_aerase_nodup hkl h2
        exact mem_newnodes_of_ne (hlab p h3) h4
      · rw [h2]
        exact mem_newnodes_self
    · rename_i h1
      intro hp
      have h4 : p.1 ≠ o := by
        intro hpo
        have hm := List.mem_map_of_mem Prod.fst hp
        rw [hpo] at hm
        exact (alookup_eq_none.mp h1) hm
      exact mem_newnodes_of_ne (hlab p hp) h4
  · simp only [replaceBody]
    split
    · exact mem_newnodes_self
    · rename_i hne
      cases hr : g.root with
      | none => exact trivial
      | some r =>
        have hrn : r ∈ g.nodes := by rw [hr] at hroot; exact hroot
        have hro : r ≠ o := fun h => hne (by rw [hr, h])
        exact mem_newnodes_of_ne hrn hro

theorem replace_node_preserves {g g' : SGraph} {o n : Int}
    (hg : invariants g) (h : replace_node g o n = .ok g') : invariants g' := by
  obtain ⟨hn, ho, rfl⟩ := replace_node_eq_ok.mp h
  exact replaceBody_invariants hg hn ho

theorem forget_preserves {g : SGraph} {s : String}
    (hg : invariants g) : invariants (forget g s) := by
  obtain ⟨hnd, hke, hkl, hks, hedges, hsrc, hlab, hroot⟩ := hg
  unfold forget
  split
  · exact ⟨hnd, hke, hkl, nodup_keys_aerase hks,
      hedges, fun p hp => hsrc p (mem_aerase hp), hlab, hroot⟩
  · exact ⟨hnd, hke, hkl, hks, hedges, hsrc, hlab, hroot⟩

theorem rename_preserves {g g' : SGraph} {o n : String}
    (hg : invariants g) (h : rename g o n = .ok g') : invariants g' := by
  obtain ⟨hnd, hke, hkl, hks, hedges, hsrc, hlab, hroot⟩ := hg
  unfold rename at h
  split at h
  · exact absurd h (by simp)
  · revert h
    split
    · rename_i node h0
      intro h
      simp only [Except.ok.injEq] at h
      subst h
      refine ⟨hnd, hke, hkl, nodup_keys_aupdate (nodup_keys_aerase hks),
        hedges, ?_, hlab, hroot⟩
      intro p hp
      rcases mem_aupdate hp with h1 | h1
      · exact hsrc p (mem_aerase h1)
      · rw [h1]
        exact hsrc (o, node) (alookup_mem h0)
    · intro h
      simp only [Except.ok.injEq] at h
      subst h
      exact ⟨hnd, hke, hkl, hks, hedges, hsrc, hlab, hroot⟩

theorem add_source_preserves {g g' : SGraph} {node : Int} {s : String}
    (hg : invariants g) (hn : node ∈ g.nodes)
    (h : add_source g node s = .ok g') : invariants g' := by
  obtain ⟨hnd, hke, hkl, hks, hedges, hsrc, hlab, hroot⟩ := hg
  have hinv : invariants { g with sources := aupdate g.sources s node } := by
    refine ⟨hnd, hke, hkl, nodup_keys_aupdate hks, hedges, ?_, hlab, hroot⟩
    intro p hp
    rcases mem_aupdate hp with h1 | h1
    · exact hsrc p h1
    · rw [h1]
      exact hn
  unfold add_source at h
  revert h
  split
  · rename_i n0 h0
    split
    · intro h
      simp only [Except.ok.injEq] at h
      subst h
      exact hinv
    · intro h
      exact absurd h (by simp)
  · intro h
    simp only [Except.ok.injEq] at h
    subst h
    exact hinv

theorem renumberNodes_preserves {ns : List Int} : ∀ {g : SGraph} {c : Int}
    {g' : SGraph} {c' : Int}, invariants g →
    renumberNodes g ns c = .ok (g', c') → invariants g' := by
  induction ns with
  | nil =>
    intro g c g' c' hg h
    simp only [renumberNodes, Except.ok.injEq, Prod.mk.injEq] at h
    obtain ⟨rfl, rfl⟩ := h
    exact hg
  | cons n rest ih =>
    intro g c g' c' hg h
    simp only [renumberNodes] at h
    revert h
    split
    · rename_i g1 hrep
      intro h
      exact ih (replace_node_preserves hg hrep) h
    · intro h
      exact absurd h (by simp)

theorem unifySources_preserves {ss : List (String × Int)} {ks : List String} :
    ∀ {g g' : SGraph}, invariants g →
    unifySources ss ks g = .ok g' → invariants g' := by
  induction ss with
  | nil =>
    intro g g' hg h
    simp only [unifySources, Except.ok.injEq] at h
    subst h
    exact hg
  | cons p rest ih =>
    obtain ⟨s, nv⟩ := p
    intro g g' hg h
    simp only [unifySources] at h
    revert h
    split
    · split
      · rename_i oldn h0
        split
        · rename_i g1 hrep
          intro h
          exact ih (replace_node_preserves hg hrep) h
        · intro h
          exact absurd h (by simp)
      · intro h
        exact absurd h (by simp)
    · intro h
      exact ih hg h

theorem mergeEdges_wf {N : List Int} :
    ∀ (e2 e1 : List (Int × List (Int × String))),
    (∀ p ∈ e1, p.1 ∈ N ∧ ∀ t ∈ p.2, t.1 ∈ N) →
    (∀ p ∈ e2, p.1 ∈ N ∧ ∀ t ∈ p.2, t.1 ∈ N) →
    (keys e1).Nodup →
    (∀ p ∈ mergeEdges e1 e2, p.1 ∈ N ∧ ∀ t ∈ p.2, t.1 ∈ N) ∧
      (keys (mergeEdges e1 e2)).Nodup := by
  intro e2
  induction e2 with
  | nil =>
    intro e1 h1 h2 hnd
    exact ⟨h1, hnd⟩
  | cons p rest ih =>
    intro e1 h1 h2 hnd
    have hp : p.1 ∈ N ∧ ∀ t ∈ p.2, t.1 ∈ N := h2 p (List.mem_cons_self p rest)
    have h2r : ∀ q ∈ rest, q.1 ∈ N ∧ ∀ t ∈ q.2, t.1 ∈ N :=
      fun q hq => h2 q (List.mem_cons_of_mem _ hq)
    simp only [mergeEdges, List.foldl_cons]
    simp only [mergeEdges] at ih
    split
    · rename_i es h0
      refine ih (aupdate e1 p.1 (es ++ p.2)) ?_ h2r (nodup_keys_aupdate hnd)
      intro q hq
      rcases mem_aupdate hq with h3 | h3
      · exact h1 q h3
      · rw [h3]
        refine ⟨hp.1, ?_⟩
        intro t ht
        rcases List.mem_append.mp ht with h4 | h4
        · exact (h1 (p.1, es) (alookup_mem h0)).2 t h4
        · exact hp.2 t h4
    · rename_i h0
      refine ih (aupdate e1 p.1 p.2) ?_ h2r (nodup_keys_aupdate hnd)
      intro q hq
      rcases mem_aupdate hq with h3 | h3
      · exact h1 q h3
      · rw [h3]
        exact hp

theorem merge_preserves {a b g : SGraph}
    (ha : invariants a) (hb : invariants b) (h : merge a b = .ok g) :
    invariants g := by
  unfold merge at h
  revert h
  split
  · rename_i t hfull
    intro h
    simp only [Except.ok.injEq] at h
    subst h
    unfold mergeFull at hfull
    revert hfull
    split
    · intro hfull
      exact absurd hfull (by simp)
    · rename_i m hmax
      split
      · intro hfull
        exact absurd hfull (by simp)
      · rename_i new_other c hre
        split
        · intro hfull
          exact absurd hfull (by simp)
        · rename_i n2 hun
          intro hfull
          simp only [Except.ok.injEq] at hfull
          subst hfull
          have hno : invariants new_other := renumberNodes_preserves hb hre
          have hn2 : invariants n2 := unifySources_preserves hno hun
          obtain ⟨and1, ae, al, as2, aed, asr, alb, art⟩ := ha
          obtain ⟨nnd, ne2, nl, ns2, ned, nsr, nlb, nrt⟩ := hn2
          have hsub1 : ∀ x ∈ a.nodes, x ∈ listUnion a.nodes n2.nodes :=
            fun x hx => mem_listUnion.mpr (Or.inl hx)
          have hsub2 : ∀ x ∈ n2.nodes, x ∈ listUnion a.nodes n2.nodes :=
            fun x hx => mem_listUnion.mpr (Or.inr hx)
          have hme := mergeEdges_wf n2.edges a.edges
            (fun p hp => ⟨hsub1 _ (aed p hp).1, fun t ht => hsub1 _ ((aed p hp).2 t ht)⟩)
            (fun p hp => ⟨hsub2 _ (ned p hp).1, fun t ht => hsub2 _ ((ned p hp).2 t ht)⟩)
            ae
          refine ⟨nodup_listUnion and1 nnd, hme.2, nodup_keys_dictUpdate al,
            nodup_keys_dictUpdate as2, hme.1, ?_, ?_, ?_⟩
          · intro p hp
            rcases mem_dictUpdate hp with h1 | h1
            · exact hsub1 _ (asr p h1)
            · exact hsub2 _ (nsr p h1)
          · intro p hp
            rcases mem_dictUpdate hp with h1 | h1
            · exact hsub1 _ (alb p h1)
            · exact hsub2 _ (nlb p h1)
          · cases hr : a.root with
            | none => exact trivial
            | some r =>
              have hra : r ∈ a.nodes := by rw [hr] at art; exact art
              exact hsub1 _ hra
  · intro h
    exact absurd h (by simp)

theorem renumberNodes_ok (b0 : Int) :
    ∀ (ns : List Int) (g : SGraph) (c : Int),
    invariants g → ns.Nodup → (∀ n ∈ ns, n ∈ g.nodes) →
    (∀ n ∈ g.nodes, n < c) → (∀ n ∈ g.nodes, n ∈ ns ∨ b0 < n) → b0 < c →
    ∃ g' c', renumberNodes g ns c = .ok (g', c') ∧ invariants g' ∧
      (∀ n ∈ g'.nodes, n < c') ∧ (∀ n ∈ g'.nodes, b0 < n) := by
  intro ns
  induction ns with
  | nil =>
    intro g c hg _ _ hlt hcov _
    refine ⟨g, c, rfl, hg, hlt, ?_⟩
    intro n hn
    rcases hcov n hn with h | h
    · simp at h
    · exact h
  | cons n0 rest ih =>
    intro g c hg hnd hmem hlt hcov hbc
    have hc_not : c ∉ g.nodes := fun hc => absurd (hlt c hc) (lt_irrefl c)
    have hn0 : n0 ∈ g.nodes := hmem n0 (List.mem_cons_self n0 rest)
    have hrep : replace_node g n0 c = .ok (replaceBody g n0 c) :=
      replace_node_eq_ok.mpr ⟨hc_not, hn0, rfl⟩
    have hg1 : invariants (replaceBody g n0 c) := replaceBody_invariants hg hc_not hn0
    have hmem1 : ∀ x, x ∈ (replaceBody g n0 c).nodes ↔
        (x ∈ g.nodes ∧ x ≠ n0) ∨ x = c := by
      intro x
      simp only [replaceBody]
      constructor
      · intro hx
        rcases List.mem_append.mp hx with h | h
        · exact Or.inl ⟨List.mem_of_mem_erase h, (hg.1.mem_erase_iff.mp h).1⟩
        · exact Or.inr (List.mem_singleton.mp h)
      · intro hx
        rcases hx with ⟨h1, h2⟩ | rfl
        · exact mem_newnodes_of_ne h1 h2
        · exact mem_newnodes_self
    obtain ⟨hn0notrest, hndrest⟩ := List.nodup_cons.mp hnd
    obtain ⟨g', c', hre, hinv, hlt2, hb2⟩ := ih (replaceBody g n0 c) (c + 1) hg1 hndrest
      (fun x hx => by
        have hxg : x ∈ g.nodes := hmem x (List.mem_cons_of_mem _ hx)
        have hxn0 : x ≠ n0 := fun he => hn0notrest (he ▸ hx)
        exact (hmem1 x).mpr (Or.inl ⟨hxg, hxn0⟩))
      (fun x hx => by
        rcases (hmem1 x).mp hx with ⟨h1, _⟩ | rfl
        · have := hlt x h1
          omega
        · omega)
      (fun x hx => by
        rcases (hmem1 x).mp hx with ⟨h1, h2⟩ | rfl
        · rcases hcov x h1 with h3 | h3
          · rcases List.mem_cons.mp h3 with h4 | h4
            · exact absurd h4 h2
            · exact Or.inl h4
          · exact Or.inr h3
        · exact Or.inr hbc)
      (by omega)
    refine ⟨g', c', ?_, hinv, hlt2, hb2⟩
    simp only [renumberNodes, hrep]
    exact hre

theorem unifySources_no_collision (b0 : Int) (ks : List String) :
    ∀ (ss : List (String × Int)) (g : SGraph) (S : List Int),
    (∀ n ∈ g.nodes, b0 < n ∨ n ∈ S) →
    ((ss.filter (fun p => decide (p.1 ∈ ks))).map Prod.snd).Nodup →
    (∀ v ∈ (ss.filter (fun p => decide (p.1 ∈ ks))).map Prod.snd, v ≤ b0 ∧ v ∉ S) →
    unifySources ss ks g ≠ .error .collisionError := by
  intro ss
  induction ss with
  | nil =>
    intro g S _ _ _
    simp [unifySources]
  | cons p rest ih =>
    obtain ⟨s, v⟩ := p
    intro g S hA hnd hB
    by_cases hs : s ∈ ks
    · have hfil : ((s, v) :: rest).filter (fun p => decide (p.1 ∈ ks)) =
          (s, v) :: rest.filter (fun p => decide (p.1 ∈ ks)) := by
        simp [List.filter_cons, hs]
      rw [hfil] at hnd hB
      simp only [List.map_cons] at hnd hB
      obtain ⟨hvnotrest, hndrest⟩ := List.nodup_cons.mp hnd
      have hvb : v ≤ b0 ∧ v ∉ S := hB v (List.mem_cons_self _ _)
      simp only [unifySources]
      rw [if_pos hs]
      split
      · rename_i oldn h0
        have hvnotin : v ∉ g.nodes := by
          intro hv
          rcases hA v hv with h | h
          · omega
          · exact hvb.2 h
        have hnotcol : replace_node g oldn v ≠ .error .collisionError := by
          unfold replace_node
          rw [if_neg hvnotin]
          split
          · simp
          · simp
        split
        · rename_i g1 hrep
          obtain ⟨_, _, rfl⟩ := replace_node_eq_ok.mp hrep
          refine ih (replaceBody g oldn v) (v :: S) ?_ hndrest ?_
          · intro x hx
            simp only [replaceBody] at hx
            rcases List.mem_append.mp hx with h | h
            · rcases hA x (List.mem_of_mem_erase h) with h2 | h2
              · exact Or.inl h2
              · exact Or.inr (List.mem_cons_of_mem _ h2)
            · simp only [List.mem_singleton] at h
              exact Or.inr (h ▸ List.mem_cons_self v S)
          · intro w hw
            have hwb := hB w (List.mem_cons_of_mem _ hw)
            refine ⟨hwb.1, ?_⟩
            intro hwS
            rcases List.mem_cons.mp hwS with h2 | h2
            · exact hvnotrest (h2 ▸ hw)
            · exact hwb.2 h2
        · rename_i e hrep
          intro heq
          exact hnotcol (hrep.trans heq)
      · simp
    · have hfil : ((s, v) :: rest).filter (fun p => decide (p.1 ∈ ks)) =
          rest.filter (fun p => decide (p.1 ∈ ks)) := by
        simp [List.filter_cons, hs]
      rw [hfil] at hnd hB
      simp only [unifySources]
      rw [if_neg hs]
      exact ih g S hA hnd hB

theorem mergeFull_no_collision (a b : SGraph)
    (ha : invariants a) (hb : invariants b)
    (hinj : (sharedVals a b).Nodup) :
    mergeFull a b ≠ .error .collisionError := by
  unfold mergeFull
  split
  · simp
  · rename_i m hmax
    have hle : ∀ n ∈ b.nodes, n < m + 1 := by
      intro n hn
      have := maxList_le hmax n (mem_listUnion.mpr (Or.inr hn))
      omega
    obtain ⟨g', c', hre, _, _, hb2⟩ :=
      renumberNodes_ok m b.nodes b (m + 1) hb hb.1 (fun n hn => hn) hle
        (fun n hn => Or.inl hn) (by omega)
    have hvals : ∀ v ∈ (a.sources.filter
        (fun p => decide (p.1 ∈ keys b.sources))).map Prod.snd,
        v ≤ m ∧ v ∉ ([] : List Int) := by
      intro v hv
      rcases List.mem_map.mp hv with ⟨p, hp, rfl⟩
      have hp2 : p ∈ a.sources := List.mem_of_mem_filter hp
      have hpn : p.2 ∈ a.nodes := ha.2.2.2.2.2.1 p hp2
      exact ⟨maxList_le hmax p.2 (mem_listUnion.mpr (Or.inl hpn)), by simp⟩
    have hnocol := unifySources_no_collision m (keys b.sources) a.sources g' []
      (fun n hn => Or.inl (hb2 n hn)) hinj hvals
    simp only [hre]
    split
    · rename_i e hun
      intro hcontra
      simp only [Except.error.injEq] at hcontra
      subst hcontra
      exact hnocol hun
    · simp

theorem alookup_keymap_old {β : Type} {L : List (Int × β)} {o n : Int}
    (hon : o ≠ n) :
    alookup (L.map (fun p => (subst o n p.1, p.2))) o = none := by
  induction L with
  | nil => simp [alookup]
  | cons p rest ih =>
    have hne : subst o n p.1 ≠ o := by
      unfold subst
      split
      · exact fun he => hon he.symm
      · rename_i h
        exact h
    simp only [List.map_cons, alookup]
    rw [if_neg hne]
    exact ih

theorem alookup_keymap_new {β : Type} {L : List (Int × β)} {o n : Int}
    (hn : n ∉ keys L) :
    alookup (L.map (fun p => (subst o n p.1, p.2))) n = alookup L o := by
  induction L with
  | nil => simp [alookup]
  | cons p rest ih =>
    simp only [keys_cons, List.mem_cons] at hn
    push_neg at hn
    by_cases h : p.1 = o
    · simp only [List.map_cons, alookup]
      rw [if_pos (by unfold subst; rw [if_pos h]), if_pos h]
    · have hc : subst o n p.1 ≠ n := by
        unfold subst
        rw [if_neg h]
        exact fun he => hn.1 he.symm
      simp only [List.map_cons, alookup]
      rw [if_neg hc, if_neg h]
      exact ih hn.2

theorem alookup_keymap_other {β : Type} {L : List (Int × β)} {o n k : Int}
    (hko : k ≠ o) (hkn : k ≠ n) :
    alookup (L.map (fun p => (subst o n p.1, p.2))) k = alookup L k := by
  induction L with
  | nil => simp
  | cons p rest ih =>
    by_cases h : p.1 = o
    · have hc : subst o n p.1 ≠ k := by
        unfold subst
        rw [if_pos h]
        exact fun he => hkn he.symm
      simp only [List.map_cons, alookup]
      rw [if_neg hc, if_neg (fun he : p.1 = k => hko (he ▸ h))]
      exact ih
    · have hc : subst o n p.1 = p.1 := by
        unfold subst
        rw [if_neg h]
      simp only [List.map_cons, alookup]
      rw [hc]
      split
      · rfl
      · exact ih

theorem keymap_eq_of_not_mem {β : Type} {L : List (Int × β)} {o n : Int}
    (h : o ∉ keys L) : L.map (fun p => (subst o n p.1, p.2)) = L := by
  induction L with
  | nil => simp
  | cons p rest ih =>
    simp only [keys_cons, List.mem_cons] at h
    push_neg at h
    simp only [List.map_cons]
    rw [show subst o n p.1 = p.1 from by
      unfold subst
      rw [if_neg (fun he => h.1 he.symm)]]
    rw [ih h.2]

theorem move_lookup_some {β : Type} {L : List (Int × β)} {o n : Int} {v : β}
    (hnd : (keys L).Nodup) (hn : n ∉ keys L) (hon : o ≠ n)
    (h0 : alookup L o = some v) (k : Int) :
    alookup (aupdate (aerase L o) n v) k =
    alookup (L.map (fun p => (subst o n p.1, p.2))) k := by
  by_cases hk_o : k = o
  · subst hk_o
    rw [alookup_aupdate_ne hon, alookup_aerase_self hnd, alookup_keymap_old hon]
  · by_cases hk_n : k = n
    · subst hk_n
      rw [alookup_aupdate_self, alookup_keymap_new hn, h0]
    · rw [alookup_aupdate_ne hk_n, alookup_aerase_ne hk_o,
        alookup_keymap_other hk_o hk_n]

theorem replaceBody_equiv_spec {g : SGraph} {o n : Int}
    (hg : invariants g) (ho : o ∈ g.nodes) (hn : n ∉ g.nodes) :
    equivS (replaceBody g o n) (specReplace g o n) := by
  obtain ⟨hnd, hke, hkl, hks, hedges, hsrc, hlab, hroot⟩ := hg
  have hon : o ≠ n := fun h => hn (h ▸ ho)
  refine ⟨?_, ?_, ?_, ?_, ?_⟩
  · intro x
    simp only [replaceBody, specReplace]
    constructor
    · intro hx
      rcases List.mem_append.mp hx with h | h
      · obtain ⟨hne, hmem⟩ := hnd.mem_erase_iff.mp h
        exact List.mem_map.mpr ⟨x, hmem, by unfold subst; rw [if_neg hne]⟩
      · simp only [List.mem_singleton] at h
        subst h
        exact List.mem_map.mpr ⟨o, ho, by unfold subst; rw [if_pos rfl]⟩
    · intro hx
      rcases List.mem_map.mp hx with ⟨y, hy, rfl⟩
      by_cases hyo : y = o
      · rw [show subst o n y = n from by unfold subst; rw [if_pos hyo]]
        exact mem_newnodes_self
      · rw [show subst o n y = y from by unfold subst; rw [if_neg hyo]]
        exact mem_newnodes_of_ne hy hyo
  · intro k
    have hfx : (fun t : Int × String => if t.1 = o then (n, t.2) else t) =
        (fun t : Int × String => (subst o n t.1, t.2)) := by
      funext t
      unfold subst
      by_cases h : t.1 = o
      · simp [h]
      · simp [h]
    have hn_e : n ∉ keys g.edges := by
      intro hh
      rcases List.mem_map.mp hh with ⟨p, hp, hf⟩
      exact hn (hf ▸ (hedges p hp).1)
    have hcomp : g.edges.map (fun p =>
          (subst o n p.1, p.2.map (fun t => (subst o n t.1, t.2)))) =
        (g.edges.map (fun p => (subst o n p.1, p.2))).map
          (fun p => (p.1, p.2.map (fun t => (subst o n t.1, t.2)))) := by
      rw [List.map_map]
      rfl
    cases h0 : alookup g.edges o with
    | some es =>
      simp only [replaceBody, specReplace, h0, hfx]
      rw [alookup_valmap, hcomp, alookup_valmap,
        move_lookup_some hke hn_e hon h0 k]
    | none =>
      simp only [replaceBody, specReplace, h0, hfx]
      rw [alookup_valmap, hcomp, alookup_valmap,
        keymap_eq_of_not_mem (alookup_eq_none.mp h0)]
  · intro k
    have hn_l : n ∉ keys g.node_labels := by
      intro hh
      rcases List.mem_map.mp hh with ⟨p, hp, hf⟩
      exact hn (hf ▸ hlab p hp)
    cases h0 : alookup g.node_labels o with
    | some lab =>
      simp only [replaceBody, specReplace, h0]
      rw [move_lookup_some hkl hn_l hon h0 k]
    | none =>
      simp only [replaceBody, specReplace, h0]
      rw [keymap_eq_of_not_mem (alookup_eq_none.mp h0)]
  · intro k
    have hsm : g.sources.map (fun p => if p.2 = o then (p.1, n) else p) =
        g.sources.map (fun p => (p.1, subst o n p.2)) := by
      apply List.map_congr_left
      intro p _
      unfold subst
      by_cases h : p.2 = o
      · simp [h]
      · simp [h]
    simp only [replaceBody, specReplace, hsm]
  · simp only [replaceBody, specReplace]
    cases hr : g.root with
    | none => simp
    | some r =>
      unfold subst
      by_cases h : r = o
      · simp [h]
      · simp [h]

theorem mergeFull_frame {a b : SGraph} {t : SGraph × SGraph × SGraph}
    (h : mergeFull a b = .ok t) : t.1 = a ∧ t.2.1 = b := by
  unfold mergeFull at h
  revert h
  split
  · intro h
    exact absurd h (by simp)
  · split
    · intro h
      exact absurd h (by simp)
    · split
      · intro h
        exact absurd h (by simp)
      · intro h
        simp only [Except.ok.injEq] at h
        subst h
        exact ⟨rfl, rfl⟩

theorem merge_root_left {a b g : SGraph} (h : merge a b = .ok g) :
    g.root = a.root := by
  unfold merge at h
  revert h
  split
  · rename_i t hfull
    intro h
    simp only [Except.ok.injEq] at h
    subst h
    unfold mergeFull at hfull
    revert hfull
    split
    · intro hfull
      exact absurd hfull (by simp)
    · split
      · intro hfull
        exact absurd hfull (by simp)
      · split
        · intro hfull
          exact absurd hfull (by simp)
        · intro hfull
          simp only [Except.ok.injEq] at hfull
          subst hfull
          rfl
  · intro h
    exact absurd h (by simp)

theorem unifySources_nil_keys : ∀ (ss : List (String × Int)) (g : SGraph),
    unifySources ss [] g = .ok g := by
  intro ss
  induction ss with
  | nil =>
    intro g
    rfl
  | cons p rest ih =>
    intro g
    obtain ⟨s, v⟩ := p
    simp only [unifySources]
    rw [if_neg (by simp)]
    exact ih g

theorem merge_empty_right {a : SGraph} (h : a.nodes ≠ []) :
    merge a emptySGraph = .ok a := by
  have hu : listUnion a.nodes emptySGraph.nodes = a.nodes := by
    simp [listUnion, emptySGraph]
  obtain ⟨m, hm⟩ := maxList_isSome h
  unfold merge mergeFull
  simp only [hu, hm]
  simp only [emptySGraph, renumberNodes]
  simp only [keys_nil, unifySources_nil_keys]
  simp only [mergeEdges, dictUpdate, List.foldl_nil]
  simp only [show listUnion a.nodes [] = a.nodes from by simp [listUnion]]

/-- Concrete graph A of the merge scenario in the spec (section 8):
nodes {1, 2}, one ARG0 edge from 1 to 2, label see on 1, source S on 2,
root 1. -/
def gLeft : SGraph := ⟨[1, 2], [(1, [(2, "ARG0")])], [(1, "see")], [("S", 2)], some 1⟩

/-- Concrete graph B of the merge scenario in the spec (section 8):
node {10}, label dog, source S on 10, root 10. -/
def gRight : SGraph := ⟨[10], [], [(10, "dog")], [("S", 10)], some 10⟩

/-- The merged graph the spec predicts for the scenario. -/
def gMerged : SGraph :=
  ⟨[1, 2], [(1, [(2, "ARG0")])], [(1, "see"), (2, "dog")], [("S", 2)], some 1⟩

/-- A valid graph whose two sources S and T both sit on its single node 1. -/
def gColLeft : SGraph := ⟨[1], [], [], [("S", 1), ("T", 1)], some 1⟩

/-- A valid graph whose two sources S and T both sit on its single node 10. -/
def gColRight : SGraph := ⟨[10], [], [], [("S", 10), ("T", 10)], some 10⟩

/-- A valid one-node graph with no edges, labels or sources. -/
def gOne : SGraph := ⟨[1], [], [], [], none⟩

/-- C1 (code bug): the constructor of SGraph accepts the input
nodes = {1}, edges = {1: [(2, "x")]} although edge target 2 is not a node,
so construction does NOT fail whenever an edge references a non-existent
node: only edge origins are validated (graphs.py line 72 checks
edges.keys() against nodes while its own assertion message promises
"Edges must be subset of nodes x nodes").  The returned graph violates
invariant 1 of the data model. -/
theorem C1_construction_misses_edge_targets :
    mkSGraph [1] [(1, [(2, "x")])] [] [] none =
      .ok ⟨[1], [(1, [(2, "x")])], [], [], none⟩ ∧
    ¬ invariants ⟨[1], [(1, [(2, "x")])], [], [], none⟩ := by
  constructor
  · decide
  · decide

/-- C2 (counterexample): add_source with a node that is not a member of
nodes succeeds and returns a graph whose sources reference a non-node,
violating invariant 2; the claim fails as stated. -/
theorem C2_add_source_can_break_invariants :
    invariants gOne ∧
    add_source gOne 2 "S" = .ok ⟨[1], [], [], [("S", 2)], none⟩ ∧
    ¬ invariants ⟨[1], [], [], [("S", 2)], none⟩ := by
  refine ⟨by decide, by decide, by decide⟩

/-- C2 (amended): for every graph satisfying the four structural
invariants, every operation that returns a graph returns one satisfying
them again — merge (with a valid right operand), forget, rename-source,
replace_node unconditionally, and add_source provided its node argument is
a member of nodes. -/
theorem C2_operations_preserve_invariants (g : SGraph) (hg : invariants g) :
    (∀ b g2, invariants b → merge g b = .ok g2 → invariants g2) ∧
    (∀ s, invariants (forget g s)) ∧
    (∀ o n g2, rename g o n = .ok g2 → invariants g2) ∧
    (∀ node s g2, node ∈ g.nodes → add_source g node s = .ok g2 → invariants g2) ∧
    (∀ o n g2, replace_node g o n = .ok g2 → invariants g2) := by
  refine ⟨?_, ?_, ?_, ?_, ?_⟩
  · intro b g2 hb h
    exact merge_preserves hg hb h
  · intro s
    exact forget_preserves hg
  · intro o n g2 h
    exact rename_preserves hg h
  · intro node s g2 hn h
    exact add_source_preserves hg hn h
  · intro o n g2 h
    exact replace_node_preserves hg h

theorem C2_operations_preserve_invariants_witness :
    invariants (forget gOne "X") :=
  (C2_operations_preserve_invariants gOne (by decide)).2.1 "X"

/-- C3: merge never mutates its operands.  mergeFull is the state-passing
form of SGraph.__add__, whose first two components are the final states of
the operand objects: both operands are deep-copied before any mutation
(graphs.py lines 184-185) and every subsequent update targets the copies,
so the operands are returned unchanged. -/
theorem C3_merge_operands_unchanged (a b : SGraph) (t : SGraph × SGraph × SGraph)
    (h : mergeFull a b = .ok t) : t.1 = a ∧ t.2.1 = b :=
  mergeFull_frame h

theorem C3_merge_operands_unchanged_witness :
    ((gLeft, gRight, gMerged) : SGraph × SGraph × SGraph).1 = gLeft ∧
    ((gLeft, gRight, gMerged) : SGraph × SGraph × SGraph).2.1 = gRight :=
  C3_merge_operands_unchanged gLeft gRight (gLeft, gRight, gMerged) (by decide)

/-- C4 (counterexample): merge CAN raise CollisionError on valid operands.
When both operands bind the two shared source names S and T to a single
node, unification of the second shared source calls replace_node with a
target node that is already present, and the collision branch fires. -/
theorem C4_merge_collision_on_shared_sources :
    invariants gColLeft ∧ invariants gColRight ∧
    merge gColLeft gColRight = .error .collisionError := by
  refine ⟨by decide, by decide, by decide⟩

/-- C4 (amended): merge never raises CollisionError on valid operands
provided the left operand binds its shared source names (those also bound
by the right operand) to pairwise-distinct nodes; in particular merges
sharing at most one source name never collide. -/
theorem C4_merge_no_collision_of_distinct_shared (a b : SGraph)
    (ha : invariants a) (hb : invariants b) (hinj : (sharedVals a b).Nodup) :
    merge a b ≠ .error .collisionError := by
  intro h
  apply mergeFull_no_collision a b ha hb hinj
  unfold merge at h
  revert h
  split
  · intro h
    exact absurd h (by simp)
  · rename_i e hf
    intro h
    simp only [Except.error.injEq] at h
    subst h
    exact hf

theorem C4_merge_no_collision_witness :
    merge gLeft gRight ≠ .error .collisionError :=
  C4_merge_no_collision_of_distinct_shared gLeft gRight (by decide) (by decide)
    (by decide)

/-- C5: whenever merge returns a graph, its root is the root of the left
operand; the right root plays no role. -/
theorem C5_merge_root_is_left_root (a b g : SGraph) (h : merge a b = .ok g) :
    g.root = a.root :=
  merge_root_left h

theorem C5_merge_root_is_left_root_witness : gMerged.root = gLeft.root :=
  C5_merge_root_is_left_root gLeft gRight gMerged (by decide)

/-- C6 (counterexample): merging the empty graph with an empty graph does
NOT succeed: the fresh-counter computation takes the maximum of an empty
node set and raises ValueError (graphs.py line 188), so the claim fails
for the empty graph it explicitly includes. -/
theorem C6_merge_empty_with_empty_fails :
    merge emptySGraph emptySGraph = .error .valueError := by
  decide

/-- C6 (amended): merging any NONEMPTY graph with an empty graph succeeds
and yields a result equal-via-oracle to the left operand (the result is in
fact structurally identical, so any oracle that scores identical exports
as 1 deems them equal); the spec property that the oracle scores a triple
set against itself as a perfect match is modelled as a hypothesis. -/
theorem C6_merge_with_empty_equals_left (a : SGraph) (h : a.nodes ≠ [])
    (oracle : PenmanG → PenmanG → Except String ℚ)
    (horacle : ∀ p, oracle p p = .ok 1) :
    ∃ g, merge a emptySGraph = .ok g ∧ sgraphEq oracle g a = true := by
  refine ⟨a, merge_empty_right h, ?_⟩
  simp only [sgraphEq, horacle]
  norm_num

theorem C6_merge_with_empty_equals_left_witness :
    ∃ g, merge gOne emptySGraph = .ok g ∧
      sgraphEq (fun p q => if p = q then .ok 1 else .ok 0) g gOne = true :=
  C6_merge_with_empty_equals_left gOne (by decide)
    (fun p q => if p = q then .ok 1 else .ok 0) (fun p => by simp)

/-- C7: the concrete scenario of the spec: merging gLeft and gRight
unifies the single node of the right operand into node 2 of the left
operand via the shared source S, keeps the single ARG0 edge, lets the
right label win on the unified node, keeps sources at S on 2 and root 1. -/
theorem C7_concrete_merge_scenario : merge gLeft gRight = .ok gMerged := by
  decide

/-- C8: the equality of graphs delegates to the external alignment
oracle: equal is a total Boolean function; an oracle failure is caught and
yields false, and on oracle success equality holds exactly when the f1
score is within 1e-6 of 1.0.  The oracle (export encoding plus smatch) is
external to the repository and modelled from the spec as a parameter. -/
theorem C8_equality_oracle_boundary
    (oracle : PenmanG → PenmanG → Except String ℚ) (a b : SGraph) :
    (∀ e, oracle (to_penman a) (to_penman b) = .error e →
      sgraphEq oracle a b = false) ∧
    (∀ q, oracle (to_penman a) (to_penman b) = .ok q →
      (sgraphEq oracle a b = true ↔ |q - 1| ≤ 1 / 1000000)) := by
  constructor
  · intro e he
    simp [sgraphEq, he]
  · intro q hq
    simp [sgraphEq, hq]

theorem C8_equality_oracle_boundary_witness :
    sgraphEq (fun _ _ => Except.ok (1 : ℚ)) gOne gOne = true :=
  ((C8_equality_oracle_boundary (fun _ _ => Except.ok (1 : ℚ)) gOne gOne).2
    1 rfl).mpr (by norm_num)

/-- C9: for every valid graph containing old: with new absent,
replace_node returns the graph in which every occurrence of old (node set,
edge origins and targets, source values, label keys, root) is new and
everything else is unchanged (extensional equality with the substitution
specification specReplace); with new present it raises CollisionError. -/
theorem C9_replace_node_characterization (g : SGraph) (o n : Int)
    (hg : invariants g) (ho : o ∈ g.nodes) :
    (n ∉ g.nodes → ∃ g2, replace_node g o n = .ok g2 ∧
      equivS g2 (specReplace g o n)) ∧
    (n ∈ g.nodes → replace_node g o n = .error .collisionError) := by
  constructor
  · intro hn
    exact ⟨replaceBody g o n, replace_node_eq_ok.mpr ⟨hn, ho, rfl⟩,
      replaceBody_equiv_spec hg ho hn⟩
  · intro hn
    unfold replace_node
    rw [if_pos hn]

theorem C9_replace_node_characterization_witness :
    (5 ∉ gLeft.nodes → ∃ g2, replace_node gLeft 2 5 = .ok g2 ∧
      equivS g2 (specReplace gLeft 2 5)) ∧
    (5 ∈ gLeft.nodes → replace_node gLeft 2 5 = .error .collisionError) :=
  C9_replace_node_characterization gLeft 2 5 (by decide) (by decide)

/-- C10: calling replace_node with both old and new absent from nodes
raises the KeyError of set.remove on the absent old node (not a
CollisionError, not a GraphError, and not a no-op): the presence of old is
an undocumented precondition of the substitution primitive. -/
theorem C10_replace_node_absent_key_error (g : SGraph) (o n : Int)
    (ho : o ∉ g.nodes) (hn : n ∉ g.nodes) :
    replace_node g o n = .error .keyError := by
  unfold replace_node
  rw [if_neg hn, if_neg ho]

theorem C10_replace_node_absent_key_error_witness :
    replace_node gOne 5 7 = .error .keyError :=
  C10_replace_node_absent_key_error gOne 5 7 (by decide) (by decide)
